import Mathlib

/-
Verification of the Greibach Normal Form construction engine
(src/GreibachNormalForm/GNF_Example.cpp).

The C++ engine works on
  Symbol          : a name, a kind (TERMINAL or VARIABLE) and an ordering index,
  ProductionBody  : std::list of Symbol,
  Productions     : std::set of ProductionBody, ordered lexicographically,
  Grammar         : std::map from Symbol to Productions.

The embedding below represents a Productions set as a list kept in the
comparator order of the C++ set (duplicates removed on insertion), and a
Grammar as an association list keyed by structural symbol equality.  All
set and map operations mirror the behaviour of the C++ containers on the
operations the engine uses: ordered insert with deduplication, lookup,
insert-or-assign, and in-order iteration with erasure during a scan.
-/

namespace GNF

inductive SymbolType where
  | TERMINAL
  | VARIABLE
deriving DecidableEq

structure Symbol where
  name : String
  type : SymbolType
  index : Int
deriving DecidableEq

/-- Comparison of characters by code point, as C++ compares string bytes
on the ASCII names used by the engine. -/
def charLtB (a b : Char) : Bool := decide (a.toNat < b.toNat)

def charListLt : List Char → List Char → Bool
  | _, [] => false
  | [], _ :: _ => true
  | a :: as, b :: bs => if a = b then charListLt as bs else charLtB a b

def strLt (a b : String) : Bool := charListLt a.data b.data

/-- TERMINAL sorts before VARIABLE, as the C++ enum values 0 and 1 do. -/
def typeLt : SymbolType → SymbolType → Bool
  | SymbolType.TERMINAL, SymbolType.VARIABLE => true
  | _, _ => false

/-- Mirror of Symbol::operator< in the source: kind, then name, then index. -/
def symLt (a b : Symbol) : Bool :=
  if a.type ≠ b.type then typeLt a.type b.type
  else if a.name ≠ b.name then strLt a.name b.name
  else decide (a.index < b.index)

abbrev ProductionBody := List Symbol

/-- Lexicographic comparison of bodies, mirroring std::list::operator< . -/
def bodyLt : ProductionBody → ProductionBody → Bool
  | _, [] => false
  | [], _ :: _ => true
  | a :: as, b :: bs => if symLt a b then true else if symLt b a then false else bodyLt as bs

abbrev Productions := List ProductionBody

abbrev Grammar := List (Symbol × Productions)

/-- Ordered insert with deduplication, mirroring std::set::insert. -/
def prodInsert (x : ProductionBody) : Productions → Productions
  | [] => [x]
  | y :: ys => if bodyLt x y then x :: y :: ys else if x = y then y :: ys else y :: prodInsert x ys

/-- Mirror of rules.insert(newRules.begin(), newRules.end()). -/
def setUnion (s t : Productions) : Productions := t.foldl (fun acc b => prodInsert b acc) s

/-- Mirror of grammar.find / grammar.at keyed by structural symbol equality. -/
def mapLookup : Grammar → Symbol → Option Productions
  | [], _ => none
  | (k, v) :: rest, V => if V = k then some v else mapLookup rest V

def lookupD (G : Grammar) (V : Symbol) : Productions := (mapLookup G V).getD []

/-- Insert-or-assign for one key, mirroring map assignment. -/
def mapSet : Grammar → Symbol → Productions → Grammar
  | [], k, v => [(k, v)]
  | (k1, v1) :: rest, k, v => if k = k1 then (k, v) :: rest else (k1, v1) :: mapSet rest k v

/-- Mirror of grammar[k]: returns the present entry, or inserts an empty one. -/
def getOrInsert (G : Grammar) (k : Symbol) : Grammar × Productions :=
  match mapLookup G k with
  | some v => (G, v)
  | none => (mapSet G k [], [])

/-- Mirror of GNFConverter::isLeftRecursive: the body is non-empty and its
front equals the head. -/
def isLeftRecursive (head : Symbol) : ProductionBody → Bool
  | [] => false
  | x :: _ => decide (x = head)

/-- The helper variable built in eliminateLeftRecursion: name Z_ followed by
the name of A, kind VARIABLE, index 1000 plus the current zCounter. -/
def freshZ (A : Symbol) (zc : Int) : Symbol :=
  ⟨"Z_" ++ A.name, SymbolType.VARIABLE, 1000 + zc⟩

/-- Partition of a production set into stripped recursive bodies (alphaRules)
and the remaining bodies (betaRules), as the scan in eliminateLeftRecursion
builds them. -/
def elrPartition (A : Symbol) : List ProductionBody → Productions × Productions
  | [] => ([], [])
  | b :: rest =>
    let p := elrPartition A rest
    if isLeftRecursive A b then (prodInsert b.tail p.1, p.2) else (p.1, prodInsert b p.2)

/-- Mirror of GNFConverter::eliminateLeftRecursion.  The state zc is the
zCounter member of the converter. -/
def eliminateLeftRecursion (G : Grammar) (zc : Int) (A : Symbol) : Grammar × Int :=
  let GR := getOrInsert G A
  let rules := GR.2
  if rules.any (isLeftRecursive A) then
    let P := elrPartition A rules
    let Z := freshZ A zc
    let newARules := P.2.foldl (fun s beta => prodInsert (beta ++ [Z]) (prodInsert beta s)) []
    let zRules := P.1.foldl (fun s al => prodInsert (al ++ [Z]) (prodInsert al s)) []
    (mapSet (mapSet GR.1 A newARules) Z zRules, zc + 1)
  else (GR.1, zc)

def insertByIndex (x : Symbol) : List Symbol → List Symbol
  | [] => [x]
  | y :: ys => if x.index < y.index then x :: y :: ys else y :: insertByIndex x ys

def sortByIndex (l : List Symbol) : List Symbol := l.foldr insertByIndex []

/-- Mirror of GNFConverter::step2_Ordering: collect the VARIABLE keys and
sort them by index. -/
def step2_Ordering (G : Grammar) : List Symbol :=
  sortByIndex (G.filterMap fun p => if p.1.type = SymbolType.VARIABLE then some p.1 else none)

/-- One in-order scan of the rules of Ai for the inner loop of step 3:
bodies leading with Aj are erased and replaced, in a separate set, by the
bodies of Aj extended with the stripped tail.  The grammar is not mutated
at the key Aj during the scan, since Aj differs from Ai in every call. -/
def fsScan (G1 : Grammar) (Aj : Symbol) : List ProductionBody → Productions × Productions
  | [] => ([], [])
  | b :: rest =>
    let pr := fsScan G1 Aj rest
    match b with
    | [] => ([] :: pr.1, pr.2)
    | x :: tl =>
      if x = Aj then
        match mapLookup G1 Aj with
        | some ajRules => (pr.1, ajRules.foldl (fun s beta => prodInsert (beta ++ tl) s) pr.2)
        | none => (pr.1, pr.2)
      else ((x :: tl) :: pr.1, pr.2)

/-- The body of the inner j-loop of step3_ForwardSubstitution for one pair
of variables Ai, Aj. -/
def substituteInto (G : Grammar) (Ai Aj : Symbol) : Grammar :=
  let GR := getOrInsert G Ai
  let pr := fsScan GR.1 Aj GR.2
  mapSet GR.1 Ai (setUnion pr.1 pr.2)

/-- The outer i-loop of step3_ForwardSubstitution: done holds the already
processed prefix of the variable ordering, in order. -/
def step3Go : Grammar → Int → List Symbol → List Symbol → Grammar × Int
  | G, zc, _, [] => (G, zc)
  | G, zc, done, Ai :: rest =>
    let G1 := done.foldl (fun g Aj => substituteInto g Ai Aj) G
    let R := eliminateLeftRecursion G1 zc Ai
    step3Go R.1 R.2 (done ++ [Ai]) rest

/-- Mirror of GNFConverter::step3_ForwardSubstitution. -/
def step3_ForwardSubstitution (G : Grammar) (zc : Int) (ordered : List Symbol) : Grammar × Int :=
  step3Go G zc [] ordered

/-- One in-order scan of the rules of the target for
substituteUntilTerminal.  kept holds the bodies already scanned and not
erased, newRules the replacement set built so far.  When the leading
variable is the target itself, the C++ code reads the production set of the
target through the map while erasing from it, so the lookup sees the kept
bodies together with the not yet scanned ones. -/
def sutGo : Grammar → Symbol → List ProductionBody → List ProductionBody → List ProductionBody → Productions × Productions
  | _, _, kept, newRules, [] => (kept, newRules)
  | G1, target, kept, newRules, b :: rest =>
    match b with
    | [] => sutGo G1 target (kept ++ [[]]) newRules rest
    | x :: tl =>
      if x.type = SymbolType.VARIABLE then
        match (if x = target then some (kept ++ (x :: tl) :: rest) else mapLookup G1 x) with
        | some repls =>
          sutGo G1 target kept (repls.foldl (fun s repl => prodInsert (repl ++ tl) s) newRules) rest
        | none => sutGo G1 target kept newRules rest
      else sutGo G1 target (kept ++ [x :: tl]) newRules rest

/-- Mirror of GNFConverter::substituteUntilTerminal. -/
def substituteUntilTerminal (G : Grammar) (target : Symbol) : Grammar :=
  let GR := getOrInsert G target
  let pr := sutGo GR.1 target [] [] GR.2
  mapSet GR.1 target (setUnion pr.1 pr.2)

/-- Mirror of GNFConverter::step5_BackSubstitution: original variables in
descending order, then the remaining variables of the grammar. -/
def step5_BackSubstitution (G : Grammar) (ordered : List Symbol) : Grammar :=
  let G1 := ordered.reverse.foldl substituteUntilTerminal G
  let zVars := G1.filterMap fun p => if ordered.any (fun v => decide (v = p.1)) then none else some p.1
  zVars.foldl substituteUntilTerminal G1

/-- Mirror of GNFConverter::run: the converter starts with zCounter 1. -/
def run (G : Grammar) : Grammar :=
  let ordered := step2_Ordering G
  let R := step3_ForwardSubstitution G 1 ordered
  step5_BackSubstitution R.1 ordered

/-- A body in Greibach normal form: non-empty with a terminal first symbol. -/
def isGNFBody : ProductionBody → Bool
  | [] => false
  | x :: _ => decide (x.type = SymbolType.TERMINAL)

/-- The GNF invariant of the specification for a whole grammar. -/
def grammarInGNF (G : Grammar) : Bool :=
  G.all fun p => p.2.all isGNFBody

/-- A body whose first symbol is a variable. -/
def leadsWithVariable : ProductionBody → Bool
  | [] => false
  | x :: _ => decide (x.type = SymbolType.VARIABLE)

/-- Engine precondition: no production body is empty. -/
def noEmptyBodies (G : Grammar) : Bool :=
  G.all fun p => p.2.all fun b => decide (b ≠ [])

def variableIndices (G : Grammar) : List Int :=
  G.filterMap fun p => if p.1.type = SymbolType.VARIABLE then some p.1.index else none

def pairwiseDistinct : List Int → Bool
  | [] => true
  | x :: xs => xs.all (fun y => decide (x ≠ y)) && pairwiseDistinct xs

/-- Engine precondition: the ordering indices of the variables are unique. -/
def uniqueOrderingIndices (G : Grammar) : Bool :=
  pairwiseDistinct (variableIndices G)

/-- Engine precondition: every variable referenced in any body has an entry
in the grammar. -/
def noDanglingReferences (G : Grammar) : Bool :=
  G.all fun p => p.2.all fun b => b.all fun s =>
    decide (s.type = SymbolType.TERMINAL) || (mapLookup G s).isSome

/-- Every symbol occurring in the grammar: the keys and the symbols of all
bodies. -/
def symbolsOf (G : Grammar) : List Symbol :=
  G.foldr (fun p acc => p.1 :: (p.2.foldr (fun b a => b ++ a) []) ++ acc) []

/-- One-step-closed derivation relation of a grammar: a sentential form
rewrites by replacing one occurrence of a variable with one of its bodies. -/
inductive Deriv (G : Grammar) : List Symbol → List Symbol → Prop
  | refl (s : List Symbol) : Deriv G s s
  | step (pre suf body t : List Symbol) (V : Symbol) (ps : Productions) :
      mapLookup G V = some ps → body ∈ ps →
      Deriv G (pre ++ body ++ suf) t → Deriv G (pre ++ V :: suf) t

/-
Concrete symbols and grammars used in the witnesses, counterexamples and
failing-input evaluations below.  Production lists are written in the
order the C++ set comparator stores them.
-/

def vA : Symbol := ⟨"A", SymbolType.VARIABLE, 1⟩

def vQ : Symbol := ⟨"Q", SymbolType.VARIABLE, 1⟩

def vR : Symbol := ⟨"R", SymbolType.VARIABLE, 2⟩

def vB2000 : Symbol := ⟨"B", SymbolType.VARIABLE, 2000⟩

def vBdangling : Symbol := ⟨"B", SymbolType.VARIABLE, 5⟩

def vZA : Symbol := ⟨"Z_A", SymbolType.VARIABLE, 1001⟩

def vZB : Symbol := ⟨"Z_B", SymbolType.VARIABLE, 1001⟩

def vZQ : Symbol := ⟨"Z_Q", SymbolType.VARIABLE, 1001⟩

def ta : Symbol := ⟨"a", SymbolType.TERMINAL, 0⟩

def tb : Symbol := ⟨"b", SymbolType.TERMINAL, 0⟩

def tc : Symbol := ⟨"c", SymbolType.TERMINAL, 0⟩

def td : Symbol := ⟨"d", SymbolType.TERMINAL, 0⟩

/-- Grammar with one self-unit left recursion: A derives A or b. -/
def GLeftRec : Grammar := [(vA, [[tb], [vA]])]

/-- Grammar whose variable Z_A with index 1001 collides with the first
helper the engine creates: A derives A a or Z_A, and Z_A derives c. -/
def GCollide : Grammar := [(vA, [[vA, ta], [vZA]]), (vZA, [[tc]])]

/-- Grammar where the helper created for B overwrites the pre-existing
variable Z_B: A derives a, Z_B derives d, B derives c or B A. -/
def GMono : Grammar := [(vA, [[ta]]), (vZB, [[td]]), (vB2000, [[tc], [vB2000, vA]])]

/-- Grammar with a dangling-led body that the pipeline regenerates:
Q derives the empty body or Q, R derives B or Q B, and B has no entry. -/
def GDrop : Grammar := [(vQ, [[], [vQ]]), (vR, [[vBdangling], [vQ, vBdangling]])]

/-- Grammar for the helper-collision counterexample of the freshness claim:
A derives b or A a, and a variable named Z_A with index 1001 derives c. -/
def GClash : Grammar := [(vA, [[tb], [vA, ta]]), (vZA, [[tc]])]

/-- Grammar whose empty body is destroyed by a helper collision: A derives
b or A a, and Z_A with index 1001 derives the empty body or d. -/
def GEps : Grammar := [(vA, [[tb], [vA, ta]]), (vZA, [[], [td]])]

/-- The left-recursion example of the specification: A derives c, A a or
A b. -/
def GAab : Grammar := [(vA, [[tc], [vA, ta], [vA, tb]])]

/-- A one-rule grammar already in Greibach normal form. -/
def GTermOnly : Grammar := [(vA, [[ta]])]

/-- Grammar with an empty body and a small index: Q derives the empty body
or a. -/
def GEpsKeep : Grammar := [(vQ, [[], [ta]])]

/-- Grammar with a dangling-led body and no other variable-led body:
A derives a or B c, and B has no entry. -/
def GDropPure : Grammar := [(vA, [[ta], [vBdangling, tc]])]

/-
Basic lemmas about the container model.
-/

theorem mem_prodInsert {b x : ProductionBody} {s : Productions} :
    b ∈ prodInsert x s ↔ b = x ∨ b ∈ s := by
  induction s with
  | nil => simp [prodInsert]
  | cons y ys ih =>
    by_cases h1 : bodyLt x y = true
    · rw [show prodInsert x (y :: ys) = x :: y :: ys from by simp [prodInsert, h1]]
      simp only [List.mem_cons]
    · by_cases h2 : x = y
      · subst h2
        rw [show prodInsert x (x :: ys) = x :: ys from by simp [prodInsert, h1]]
        simp only [List.mem_cons]
        tauto
      · rw [show prodInsert x (y :: ys) = y :: prodInsert x ys from by simp [prodInsert, h1, h2]]
        simp only [List.mem_cons, ih]
        tauto

theorem mem_setUnion {b : ProductionBody} {s t : Productions} :
    b ∈ setUnion s t ↔ b ∈ s ∨ b ∈ t := by
  induction t generalizing s with
  | nil => simp [setUnion]
  | cons y ys ih =>
    have h1 : setUnion s (y :: ys) = setUnion (prodInsert y s) ys := rfl
    rw [h1, ih, mem_prodInsert, List.mem_cons]
    tauto

theorem mapLookup_mapSet_self (G : Grammar) (k : Symbol) (v : Productions) :
    mapLookup (mapSet G k v) k = some v := by
  induction G with
  | nil => simp [mapSet, mapLookup]
  | cons p rest ih =>
    obtain ⟨k1, v1⟩ := p
    by_cases h : k = k1
    · subst h
      simp [mapSet, mapLookup]
    · simp [mapSet, h, mapLookup, ih]

theorem mapLookup_mapSet_ne (G : Grammar) (k : Symbol) (v : Productions) (W : Symbol)
    (h : W ≠ k) : mapLookup (mapSet G k v) W = mapLookup G W := by
  induction G with
  | nil => simp [mapSet, mapLookup, h]
  | cons p rest ih =>
    obtain ⟨k1, v1⟩ := p
    by_cases h2 : k = k1
    · subst h2
      simp [mapSet, mapLookup, h]
    · by_cases h3 : W = k1 <;> simp [mapSet, h2, mapLookup, h3, ih]

theorem mapSet_lookup_self (G : Grammar) (k : Symbol) (v : Productions)
    (h : mapLookup G k = some v) : mapSet G k v = G := by
  induction G with
  | nil => simp [mapLookup] at h
  | cons p rest ih =>
    obtain ⟨k1, v1⟩ := p
    by_cases h2 : k = k1
    · subst h2
      simp [mapLookup] at h
      simp [mapSet, h]
    · simp [mapLookup, h2] at h
      simp [mapSet, h2, ih h]

theorem getOrInsert_of_lookup (G : Grammar) (k : Symbol) (v : Productions)
    (h : mapLookup G k = some v) : getOrInsert G k = (G, v) := by
  simp [getOrInsert, h]

theorem isSome_mapLookup_mapSet (G : Grammar) (k : Symbol) (v : Productions) (W : Symbol)
    (h : (mapLookup G W).isSome = true) : (mapLookup (mapSet G k v) W).isSome = true := by
  by_cases h2 : W = k
  · subst h2
    simp [mapLookup_mapSet_self]
  · rw [mapLookup_mapSet_ne _ _ _ _ h2]
    exact h

theorem isSome_getOrInsert (G : Grammar) (k W : Symbol)
    (h : (mapLookup G W).isSome = true) : (mapLookup (getOrInsert G k).1 W).isSome = true := by
  unfold getOrInsert
  cases hl : mapLookup G k with
  | some v => simpa using h
  | none => simpa using isSome_mapLookup_mapSet G k [] W h

theorem mem_foldl_prodInsert {α : Type} (f : α → ProductionBody) (l : List α)
    (init : Productions) (b : ProductionBody) :
    b ∈ l.foldl (fun s a => prodInsert (f a) s) init ↔ b ∈ init ∨ ∃ a ∈ l, b = f a := by
  induction l generalizing init with
  | nil => simp
  | cons x xs ih =>
    rw [List.foldl_cons, ih, mem_prodInsert]
    simp only [List.mem_cons]
    constructor
    · rintro (⟨h | h⟩ | ⟨a, ha, hb⟩)
      · exact Or.inr ⟨x, Or.inl rfl, h⟩
      · exact Or.inl h
      · exact Or.inr ⟨a, Or.inr ha, hb⟩
    · rintro (h | ⟨a, (rfl | ha), hb⟩)
      · exact Or.inl (Or.inr h)
      · exact Or.inl (Or.inl hb)
      · exact Or.inr ⟨a, ha, hb⟩

theorem mem_foldl_prodInsert2 (Z : Symbol) (l : List ProductionBody)
    (init : Productions) (b : ProductionBody) :
    b ∈ l.foldl (fun s a => prodInsert (a ++ [Z]) (prodInsert a s)) init ↔
      b ∈ init ∨ ∃ a ∈ l, b = a ∨ b = a ++ [Z] := by
  induction l generalizing init with
  | nil => simp
  | cons x xs ih =>
    rw [List.foldl_cons, ih, mem_prodInsert, mem_prodInsert]
    simp only [List.mem_cons]
    constructor
    · rintro (⟨h | h | h⟩ | ⟨a, ha, hb⟩)
      · exact Or.inr ⟨x, Or.inl rfl, Or.inr h⟩
      · exact Or.inr ⟨x, Or.inl rfl, Or.inl h⟩
      · exact Or.inl h
      · exact Or.inr ⟨a, Or.inr ha, hb⟩
    · rintro (h | ⟨a, (rfl | ha), hb⟩)
      · exact Or.inl (Or.inr (Or.inr h))
      · rcases hb with hb | hb
        · exact Or.inl (Or.inr (Or.inl hb))
        · exact Or.inl (Or.inl hb)
      · exact Or.inr ⟨a, ha, hb⟩

theorem mem_elrPartition_alpha (A : Symbol) (l : List ProductionBody) (c : ProductionBody) :
    c ∈ (elrPartition A l).1 ↔ ∃ b ∈ l, isLeftRecursive A b = true ∧ c = b.tail := by
  induction l with
  | nil => simp [elrPartition]
  | cons b rest ih =>
    by_cases h : isLeftRecursive A b = true
    · rw [show elrPartition A (b :: rest) =
          (prodInsert b.tail (elrPartition A rest).1, (elrPartition A rest).2) from by
        simp [elrPartition, h]]
      simp only [mem_prodInsert, ih, List.mem_cons]
      constructor
      · rintro (rfl | ⟨a, ha, hrec, hc⟩)
        · exact ⟨b, Or.inl rfl, h, rfl⟩
        · exact ⟨a, Or.inr ha, hrec, hc⟩
      · rintro ⟨a, (rfl | ha), hrec, hc⟩
        · exact Or.inl hc
        · exact Or.inr ⟨a, ha, hrec, hc⟩
    · rw [show elrPartition A (b :: rest) =
          ((elrPartition A rest).1, prodInsert b (elrPartition A rest).2) from by
        simp [elrPartition, h]]
      simp only [ih, List.mem_cons]
      constructor
      · rintro ⟨a, ha, hrec, hc⟩
        exact ⟨a, Or.inr ha, hrec, hc⟩
      · rintro ⟨a, (rfl | ha), hrec, hc⟩
        · exact absurd hrec h
        · exact ⟨a, ha, hrec, hc⟩

theorem mem_elrPartition_beta (A : Symbol) (l : List ProductionBody) (c : ProductionBody) :
    c ∈ (elrPartition A l).2 ↔ c ∈ l ∧ isLeftRecursive A c = false := by
  induction l with
  | nil => simp [elrPartition]
  | cons b rest ih =>
    by_cases h : isLeftRecursive A b = true
    · rw [show elrPartition A (b :: rest) =
          (prodInsert b.tail (elrPartition A rest).1, (elrPartition A rest).2) from by
        simp [elrPartition, h]]
      simp only [ih, List.mem_cons]
      constructor
      · rintro ⟨hm, hrec⟩
        exact ⟨Or.inr hm, hrec⟩
      · rintro ⟨rfl | hm, hrec⟩
        · exact absurd h (by simp [hrec])
        · exact ⟨hm, hrec⟩
    · rw [show elrPartition A (b :: rest) =
          ((elrPartition A rest).1, prodInsert b (elrPartition A rest).2) from by
        simp [elrPartition, h]]
      simp only [mem_prodInsert, ih, List.mem_cons]
      constructor
      · rintro (rfl | ⟨hm, hrec⟩)
        · exact ⟨Or.inl rfl, Bool.eq_false_iff.mpr h⟩
        · exact ⟨Or.inr hm, hrec⟩
      · rintro ⟨rfl | hm, hrec⟩
        · exact Or.inl rfl
        · exact Or.inr ⟨hm, hrec⟩

theorem freshZ_ne (A : Symbol) (zc : Int) : freshZ A zc ≠ A := by
  intro h
  have h2 := congrArg Symbol.name h
  simp only [freshZ] at h2
  have h3 := congrArg String.length h2
  rw [String.length_append] at h3
  have h4 : ("Z_" : String).length = 2 := rfl
  omega

theorem elim_rewrite_lookup (G : Grammar) (zc : Int) (A : Symbol) (rules0 : Productions)
    (h : mapLookup G A = some rules0) (hyes : rules0.any (isLeftRecursive A) = true) :
    (eliminateLeftRecursion G zc A).2 = zc + 1 ∧
    (∀ b, b ∈ lookupD (eliminateLeftRecursion G zc A).1 A ↔
      ∃ β ∈ rules0, isLeftRecursive A β = false ∧ (b = β ∨ b = β ++ [freshZ A zc])) ∧
    (∀ b, b ∈ lookupD (eliminateLeftRecursion G zc A).1 (freshZ A zc) ↔
      ∃ ρ ∈ rules0, isLeftRecursive A ρ = true ∧ (b = ρ.tail ∨ b = ρ.tail ++ [freshZ A zc])) := by
  have hGR : getOrInsert G A = (G, rules0) := getOrInsert_of_lookup G A rules0 h
  have heq : eliminateLeftRecursion G zc A =
        (mapSet
          (mapSet G A
            ((elrPartition A rules0).2.foldl
              (fun s beta => prodInsert (beta ++ [freshZ A zc]) (prodInsert beta s)) []))
          (freshZ A zc)
          ((elrPartition A rules0).1.foldl
            (fun s al => prodInsert (al ++ [freshZ A zc]) (prodInsert al s)) []),
         zc + 1) := by
    simp [eliminateLeftRecursion, hGR, hyes]
  rw [heq]
  have hA_ne : A ≠ freshZ A zc := (freshZ_ne A zc).symm
  refine ⟨rfl, ?_, ?_⟩
  · intro b
    simp only [lookupD]
    rw [mapLookup_mapSet_ne _ _ _ _ hA_ne, mapLookup_mapSet_self]
    simp only [Option.getD_some]
    rw [mem_foldl_prodInsert2]
    simp only [List.not_mem_nil, false_or]
    constructor
    · rintro ⟨a, ha, hb⟩
      rw [mem_elrPartition_beta] at ha
      exact ⟨a, ha.1, ha.2, hb⟩
    · rintro ⟨β, hβ, hrec, hb⟩
      exact ⟨β, (mem_elrPartition_beta A rules0 β).mpr ⟨hβ, hrec⟩, hb⟩
  · intro b
    simp only [lookupD]
    rw [mapLookup_mapSet_self]
    simp only [Option.getD_some]
    rw [mem_foldl_prodInsert2]
    simp only [List.not_mem_nil, false_or]
    constructor
    · rintro ⟨a, ha, hb⟩
      rw [mem_elrPartition_alpha] at ha
      obtain ⟨ρ, hρ, hrec, rfl⟩ := ha
      exact ⟨ρ, hρ, hrec, hb⟩
    · rintro ⟨ρ, hρ, hrec, hb⟩
      exact ⟨ρ.tail, (mem_elrPartition_alpha A rules0 ρ.tail).mpr ⟨ρ, hρ, hrec, rfl⟩, hb⟩

/-- Claim C3.  For a variable A present in the grammar, if no body of A
leads with A itself, eliminateLeftRecursion changes nothing; otherwise the
production set of A becomes exactly all beta bodies and all beta bodies
extended with the helper Z, and the production set of Z becomes exactly
all stripped recursive bodies alpha and all alpha extended with Z, as set
equality. -/
theorem eliminateLeftRecursion_spec (G : Grammar) (zc : Int) (A : Symbol) (rules0 : Productions)
    (h : mapLookup G A = some rules0) :
    (rules0.any (isLeftRecursive A) = false → eliminateLeftRecursion G zc A = (G, zc)) ∧
    (rules0.any (isLeftRecursive A) = true →
      (eliminateLeftRecursion G zc A).2 = zc + 1 ∧
      (∀ b, b ∈ lookupD (eliminateLeftRecursion G zc A).1 A ↔
        ∃ β ∈ rules0, isLeftRecursive A β = false ∧ (b = β ∨ b = β ++ [freshZ A zc])) ∧
      (∀ b, b ∈ lookupD (eliminateLeftRecursion G zc A).1 (freshZ A zc) ↔
        ∃ ρ ∈ rules0, isLeftRecursive A ρ = true ∧ (b = ρ.tail ∨ b = ρ.tail ++ [freshZ A zc]))) := by
  constructor
  · intro hno
    simp [eliminateLeftRecursion, getOrInsert_of_lookup G A rules0 h, hno]
  · intro hyes
    exact elim_rewrite_lookup G zc A rules0 h hyes

/-- Witness for claim C3 at the example of the specification, A with
bodies c, A a and A b: c stays as a body of A and the helper receives a
and b with the right-recursive copies. -/
theorem eliminateLeftRecursion_spec_witness :
    mapLookup GAab vA = some [[tc], [vA, ta], [vA, tb]] ∧
    ([tc] ∈ lookupD (eliminateLeftRecursion GAab 1 vA).1 vA ∧
     [tc, freshZ vA 1] ∈ lookupD (eliminateLeftRecursion GAab 1 vA).1 vA ∧
     [ta] ∈ lookupD (eliminateLeftRecursion GAab 1 vA).1 (freshZ vA 1) ∧
     [tb, freshZ vA 1] ∈ lookupD (eliminateLeftRecursion GAab 1 vA).1 (freshZ vA 1)) := by
  refine ⟨rfl, ?_, ?_, ?_, ?_⟩
  · exact (((eliminateLeftRecursion_spec GAab 1 vA _ rfl).2 (by decide)).2.1 [tc]).mpr
      ⟨[tc], by decide, by decide, Or.inl rfl⟩
  · exact (((eliminateLeftRecursion_spec GAab 1 vA _ rfl).2 (by decide)).2.1
      [tc, freshZ vA 1]).mpr ⟨[tc], by decide, by decide, Or.inr rfl⟩
  · exact (((eliminateLeftRecursion_spec GAab 1 vA _ rfl).2 (by decide)).2.2 [ta]).mpr
      ⟨[vA, ta], by decide, by decide, Or.inl rfl⟩
  · exact (((eliminateLeftRecursion_spec GAab 1 vA _ rfl).2 (by decide)).2.2
      [tb, freshZ vA 1]).mpr ⟨[vA, tb], by decide, by decide, Or.inr rfl⟩

/-- Claim C1, failing input.  The grammar A derives A or b meets every
stated precondition, yet the full pipeline leaves the helper Z_A with the
production set consisting of the empty body and the body Z_A, so the
output violates the GNF invariant. -/
theorem run_violates_gnf_invariant_on_GLeftRec :
    noEmptyBodies GLeftRec = true ∧ uniqueOrderingIndices GLeftRec = true ∧
    noDanglingReferences GLeftRec = true ∧
    mapLookup (run GLeftRec) vZA = some [[], [vZA]] ∧
    grammarInGNF (run GLeftRec) = false := by
  decide

/-- Claim C6, failing input.  After the pipeline on the grammar A derives
A or b, which ends with the back-substitution call on the helper Z_A, the
body Z_A is still present in the production set of Z_A and leads with a
variable: the single scan of substituteUntilTerminal did not carry the
expansion to completion. -/
theorem substituteUntilTerminal_incomplete_on_GLeftRec :
    [vZA] ∈ lookupD (run GLeftRec) vZA ∧ leadsWithVariable [vZA] = true := by
  decide

/-- Claim C4, failing input.  The grammar of GMono meets every stated
precondition; the ordering is A, Z_B, B.  Eliminating the left recursion
of B creates a helper equal to the pre-existing variable Z_B and
overwrites its productions, so after step 3 the variable Z_B, at ordering
position one, has the body A leading with the position-zero variable A. -/
theorem step3_ordering_monotonicity_fails_on_GMono :
    noEmptyBodies GMono = true ∧ uniqueOrderingIndices GMono = true ∧
    noDanglingReferences GMono = true ∧
    step2_Ordering GMono = [vA, vZB, vB2000] ∧
    [vA] ∈ lookupD (step3_ForwardSubstitution GMono 1 (step2_Ordering GMono)).1 vZB ∧
    leadsWithVariable [vA] = true := by
  decide

/-- Claim C5, counterexample.  In GDrop the body B of the variable R leads
with the dangling variable B, yet after the full pipeline the body B is
again a production of R: the expansion of the body Q B through the helper
Z_Q, whose production set contains the empty body, regenerates it.  So the
pipeline does not always remove a dangling-led body. -/
theorem dangling_body_not_removed_on_GDrop :
    vBdangling.type = SymbolType.VARIABLE ∧ mapLookup GDrop vBdangling = none ∧
    [vBdangling] ∈ lookupD GDrop vR ∧
    [vBdangling] ∈ lookupD (run GDrop) vR := by
  decide

theorem sutGo_fst_sub (G1 : Grammar) (t : Symbol) (kept newRules pending : List ProductionBody)
    (b : ProductionBody) (hb : b ∈ (sutGo G1 t kept newRules pending).1) :
    b ∈ kept ∨ (b ∈ pending ∧ leadsWithVariable b = false) := by
  induction pending generalizing kept newRules with
  | nil =>
    simp only [sutGo] at hb
    exact Or.inl hb
  | cons c rest ih =>
    cases c with
    | nil =>
      rw [show sutGo G1 t kept newRules ([] :: rest) = sutGo G1 t (kept ++ [[]]) newRules rest
        from rfl] at hb
      rcases ih _ _ hb with h | h
      · rcases List.mem_append.mp h with h | h
        · exact Or.inl h
        · simp only [List.mem_singleton] at h
          subst h
          exact Or.inr ⟨List.mem_cons_self _ _, rfl⟩
      · exact Or.inr ⟨List.mem_cons_of_mem _ h.1, h.2⟩
    | cons x tl =>
      by_cases hx : x.type = SymbolType.VARIABLE
      · cases hopt : (if x = t then some (kept ++ (x :: tl) :: rest) else mapLookup G1 x) with
        | some repls =>
          rw [show sutGo G1 t kept newRules ((x :: tl) :: rest) =
              sutGo G1 t kept
                (repls.foldl (fun s repl => prodInsert (repl ++ tl) s) newRules) rest from by
            simp [sutGo, hx, hopt]] at hb
          rcases ih _ _ hb with h | h
          · exact Or.inl h
          · exact Or.inr ⟨List.mem_cons_of_mem _ h.1, h.2⟩
        | none =>
          rw [show sutGo G1 t kept newRules ((x :: tl) :: rest) =
              sutGo G1 t kept newRules rest from by simp [sutGo, hx, hopt]] at hb
          rcases ih _ _ hb with h | h
          · exact Or.inl h
          · exact Or.inr ⟨List.mem_cons_of_mem _ h.1, h.2⟩
      · rw [show sutGo G1 t kept newRules ((x :: tl) :: rest) =
            sutGo G1 t (kept ++ [x :: tl]) newRules rest from by simp [sutGo, hx]] at hb
        rcases ih _ _ hb with h | h
        · rcases List.mem_append.mp h with h | h
          · exact Or.inl h
          · simp only [List.mem_singleton] at h
            subst h
            exact Or.inr ⟨List.mem_cons_self _ _, by simp [leadsWithVariable, hx]⟩
        · exact Or.inr ⟨List.mem_cons_of_mem _ h.1, h.2⟩

theorem sutGo_snd_sub (G1 : Grammar) (t : Symbol) (ht : (mapLookup G1 t).isSome = true)
    (kept newRules pending : List ProductionBody) (b : ProductionBody)
    (hb : b ∈ (sutGo G1 t kept newRules pending).2) :
    b ∈ newRules ∨ ∃ X tl, (X :: tl) ∈ pending ∧ X.type = SymbolType.VARIABLE ∧
      (mapLookup G1 X).isSome = true ∧ ∃ repl, b = repl ++ tl := by
  induction pending generalizing kept newRules with
  | nil =>
    simp only [sutGo] at hb
    exact Or.inl hb
  | cons c rest ih =>
    cases c with
    | nil =>
      rw [show sutGo G1 t kept newRules ([] :: rest) = sutGo G1 t (kept ++ [[]]) newRules rest
        from rfl] at hb
      rcases ih _ _ hb with h | ⟨X, tl2, hm, hX, hs, hr⟩
      · exact Or.inl h
      · exact Or.inr ⟨X, tl2, List.mem_cons_of_mem _ hm, hX, hs, hr⟩
    | cons x tl =>
      by_cases hx : x.type = SymbolType.VARIABLE
      · by_cases hxt : x = t
        · subst hxt
          rw [show sutGo G1 x kept newRules ((x :: tl) :: rest) =
              sutGo G1 x kept
                ((kept ++ (x :: tl) :: rest).foldl
                  (fun s repl => prodInsert (repl ++ tl) s) newRules) rest from by
            simp only [sutGo, hx, if_true, eq_self_iff_true]] at hb
          rcases ih _ _ hb with h | ⟨X, tl2, hm, hX, hs, hr⟩
          · rw [mem_foldl_prodInsert (fun repl => repl ++ tl)] at h
            rcases h with h | ⟨repl, _, rfl⟩
            · exact Or.inl h
            · exact Or.inr ⟨x, tl, List.mem_cons_self _ _, hx, ht, repl, rfl⟩
          · exact Or.inr ⟨X, tl2, List.mem_cons_of_mem _ hm, hX, hs, hr⟩
        · cases hopt : mapLookup G1 x with
          | some repls =>
            rw [show sutGo G1 t kept newRules ((x :: tl) :: rest) =
                sutGo G1 t kept
                  (repls.foldl (fun s repl => prodInsert (repl ++ tl) s) newRules) rest from by
              simp [sutGo, hx, hxt, hopt]] at hb
            rcases ih _ _ hb with h | ⟨X, tl2, hm, hX, hs, hr⟩
            · rw [mem_foldl_prodInsert (fun repl => repl ++ tl)] at h
              rcases h with h | ⟨repl, _, rfl⟩
              · exact Or.inl h
              · exact Or.inr ⟨x, tl, List.mem_cons_self _ _, hx, by rw [hopt]; rfl, repl, rfl⟩
            · exact Or.inr ⟨X, tl2, List.mem_cons_of_mem _ hm, hX, hs, hr⟩
          | none =>
            rw [show sutGo G1 t kept newRules ((x :: tl) :: rest) =
                sutGo G1 t kept newRules rest from by simp [sutGo, hx, hxt, hopt]] at hb
            rcases ih _ _ hb with h | ⟨X, tl2, hm, hX, hs, hr⟩
            · exact Or.inl h
            · exact Or.inr ⟨X, tl2, List.mem_cons_of_mem _ hm, hX, hs, hr⟩
      · rw [show sutGo G1 t kept newRules ((x :: tl) :: rest) =
            sutGo G1 t (kept ++ [x :: tl]) newRules rest from by simp [sutGo, hx]] at hb
        rcases ih _ _ hb with h | ⟨X, tl2, hm, hX, hs, hr⟩
        · exact Or.inl h
        · exact Or.inr ⟨X, tl2, List.mem_cons_of_mem _ hm, hX, hs, hr⟩

/-- Claim C5 (amended).  Any body surviving a substituteUntilTerminal pass
over a variable V is either an original body of V that does not lead with
a variable, or an expansion repl concatenated with tail for some original
body of V of the form X tail whose leading variable X has a grammar entry.
In particular a body leading with a dangling variable contributes nothing
of its own to the result: it can only reappear if the expansion of a
present-led body happens to rebuild it. -/
theorem substituteUntilTerminal_drop_policy (G : Grammar) (V : Symbol) (rules0 : Productions)
    (h : mapLookup G V = some rules0) (b : ProductionBody)
    (hb : b ∈ lookupD (substituteUntilTerminal G V) V) :
    (b ∈ rules0 ∧ leadsWithVariable b = false) ∨
    (∃ X tl, (X :: tl) ∈ rules0 ∧ X.type = SymbolType.VARIABLE ∧
      (mapLookup G X).isSome = true ∧ ∃ repl, b = repl ++ tl) := by
  have hGR : getOrInsert G V = (G, rules0) := getOrInsert_of_lookup G V rules0 h
  have ht : (mapLookup G V).isSome = true := by rw [h]; rfl
  have heq : substituteUntilTerminal G V =
      mapSet G V (setUnion (sutGo G V [] [] rules0).1 (sutGo G V [] [] rules0).2) := by
    simp [substituteUntilTerminal, hGR]
  simp only [lookupD] at hb
  rw [heq, mapLookup_mapSet_self] at hb
  simp only [Option.getD_some] at hb
  rw [mem_setUnion] at hb
  rcases hb with hb | hb
  · rcases sutGo_fst_sub G V [] [] rules0 b hb with h2 | h2
    · simp at h2
    · exact Or.inl h2
  · rcases sutGo_snd_sub G V ht [] [] rules0 b hb with h2 | h2
    · simp at h2
    · exact Or.inr h2

/-- Witness for the amended drop-policy claim: in GDropPure the body a of
A survives as a non-variable-leading original, while the dangling-led
body B c is gone from the result. -/
theorem substituteUntilTerminal_drop_policy_witness :
    mapLookup GDropPure vA = some [[ta], [vBdangling, tc]] ∧
    (([ta] ∈ [[ta], [vBdangling, tc]] ∧ leadsWithVariable [ta] = false) ∨
      (∃ X tl, (X :: tl) ∈ [[ta], [vBdangling, tc]] ∧ X.type = SymbolType.VARIABLE ∧
        (mapLookup GDropPure X).isSome = true ∧ ∃ repl, [ta] = repl ++ tl)) :=
  ⟨rfl, substituteUntilTerminal_drop_policy GDropPure vA _ rfl [ta] (by decide)⟩

/-- Claim C7, counterexample.  In GClash the call of eliminateLeftRecursion
on A performs a rewrite and builds the helper with name Z_A and index 1001,
which equals the pre-existing variable Z_A of the grammar: the helper is
not distinct from every existing symbol, and the assignment of the helper
productions overwrites the entry of that variable. -/
theorem helper_collides_on_GClash :
    (lookupD GClash vA).any (isLeftRecursive vA) = true ∧
    freshZ vA 1 = vZA ∧
    freshZ vA 1 ∈ symbolsOf GClash ∧
    mapLookup GClash vZA = some [[tc]] ∧
    mapLookup (eliminateLeftRecursion GClash 1 vA).1 vZA = some [[ta], [ta, vZA]] := by
  decide

/-- Claim C7 (amended).  When every symbol occurring in the grammar is a
terminal or has index at most 1000, and the counter is at least one, the
helper built by eliminateLeftRecursion differs from every symbol occurring
in the grammar at that moment. -/
theorem freshZ_fresh_of_bounded (G : Grammar) (zc : Int) (A : Symbol)
    (_hrec : (lookupD G A).any (isLeftRecursive A) = true)
    (hzc : 1 ≤ zc)
    (hidx : ∀ s ∈ symbolsOf G, s.type = SymbolType.TERMINAL ∨ s.index ≤ 1000) :
    freshZ A zc ∉ symbolsOf G := by
  intro hmem
  rcases hidx _ hmem with h | h
  · exact absurd h (by simp [freshZ])
  · simp only [freshZ] at h
    omega

/-- Witness for the amended freshness claim on the grammar A derives A or
b, whose only variable has index one. -/
theorem freshZ_fresh_of_bounded_witness : freshZ vA 1 ∉ symbolsOf GLeftRec :=
  freshZ_fresh_of_bounded GLeftRec 1 vA (by decide) (by decide) (by decide)

/-- Claim C10, counterexample.  The empty body of the variable Z_A of GEps
is gone after the pipeline: the helper created for A equals Z_A and the
helper assignment overwrites its production set. -/
theorem empty_body_lost_on_GEps :
    [] ∈ lookupD GEps vZA ∧ [] ∉ lookupD (run GEps) vZA := by
  decide

/-
Preservation of grammar entries through every phase.
-/

theorem eliminateLeftRecursion_shape (G : Grammar) (zc : Int) (A : Symbol) :
    eliminateLeftRecursion G zc A = ((getOrInsert G A).1, zc) ∨
    ∃ v1 v2, eliminateLeftRecursion G zc A =
      (mapSet (mapSet (getOrInsert G A).1 A v1) (freshZ A zc) v2, zc + 1) := by
  by_cases hr : ((getOrInsert G A).2.any (isLeftRecursive A)) = true
  · right
    exact ⟨(elrPartition A (getOrInsert G A).2).2.foldl
        (fun s beta => prodInsert (beta ++ [freshZ A zc]) (prodInsert beta s)) [],
      (elrPartition A (getOrInsert G A).2).1.foldl
        (fun s al => prodInsert (al ++ [freshZ A zc]) (prodInsert al s)) [],
      by simp [eliminateLeftRecursion, hr]⟩
  · left
    simp [eliminateLeftRecursion, hr]

theorem isSome_substituteInto (G : Grammar) (Ai Aj W : Symbol)
    (h : (mapLookup G W).isSome = true) :
    (mapLookup (substituteInto G Ai Aj) W).isSome = true := by
  unfold substituteInto
  exact isSome_mapLookup_mapSet _ _ _ _ (isSome_getOrInsert G Ai W h)

theorem isSome_eliminateLeftRecursion (G : Grammar) (zc : Int) (A W : Symbol)
    (h : (mapLookup G W).isSome = true) :
    (mapLookup (eliminateLeftRecursion G zc A).1 W).isSome = true := by
  rcases eliminateLeftRecursion_shape G zc A with heq | ⟨v1, v2, heq⟩
  · rw [heq]
    exact isSome_getOrInsert G A W h
  · rw [heq]
    exact isSome_mapLookup_mapSet _ _ _ _
      (isSome_mapLookup_mapSet _ _ _ _ (isSome_getOrInsert G A W h))

theorem isSome_foldl_substituteInto (Ai : Symbol) (done : List Symbol) (G : Grammar)
    (W : Symbol) (h : (mapLookup G W).isSome = true) :
    (mapLookup (done.foldl (fun g Aj => substituteInto g Ai Aj) G) W).isSome = true := by
  induction done generalizing G with
  | nil => exact h
  | cons Aj rest ih => exact ih _ (isSome_substituteInto G Ai Aj W h)

theorem isSome_step3Go (rest : List Symbol) (done : List Symbol) (G : Grammar) (zc : Int)
    (W : Symbol) (h : (mapLookup G W).isSome = true) :
    (mapLookup (step3Go G zc done rest).1 W).isSome = true := by
  induction rest generalizing G zc done with
  | nil => simpa [step3Go] using h
  | cons Ai rest2 ih =>
    simp only [step3Go]
    exact ih _ _ _
      (isSome_eliminateLeftRecursion _ _ _ _ (isSome_foldl_substituteInto Ai done G W h))

theorem isSome_substituteUntilTerminal (G : Grammar) (t W : Symbol)
    (h : (mapLookup G W).isSome = true) :
    (mapLookup (substituteUntilTerminal G t) W).isSome = true := by
  unfold substituteUntilTerminal
  exact isSome_mapLookup_mapSet _ _ _ _ (isSome_getOrInsert G t W h)

theorem isSome_foldl_sut (l : List Symbol) (G : Grammar) (W : Symbol)
    (h : (mapLookup G W).isSome = true) :
    (mapLookup (l.foldl substituteUntilTerminal G) W).isSome = true := by
  induction l generalizing G with
  | nil => exact h
  | cons t rest ih => exact ih _ (isSome_substituteUntilTerminal G t W h)

theorem isSome_step5 (G : Grammar) (ordered : List Symbol) (W : Symbol)
    (h : (mapLookup G W).isSome = true) :
    (mapLookup (step5_BackSubstitution G ordered) W).isSome = true := by
  unfold step5_BackSubstitution
  exact isSome_foldl_sut _ _ _ (isSome_foldl_sut _ _ _ h)

/-- Claim C8.  Every variable with an entry in the input grammar still has
an entry, with some possibly empty production set, after the forward
substitution phase and after the whole pipeline: the engine only inserts
or rewrites entries, it never deletes one. -/
theorem run_preserves_variable_entries (G : Grammar) (V : Symbol)
    (h : (mapLookup G V).isSome = true) :
    (mapLookup (step3_ForwardSubstitution G 1 (step2_Ordering G)).1 V).isSome = true ∧
    (mapLookup (run G) V).isSome = true := by
  constructor
  · exact isSome_step3Go (step2_Ordering G) [] G 1 V h
  · unfold run
    exact isSome_step5 _ _ _ (isSome_step3Go (step2_Ordering G) [] G 1 V h)

/-- Witness for the entry-preservation claim on the grammar A derives A
or b. -/
theorem run_preserves_variable_entries_witness :
    (mapLookup GLeftRec vA).isSome = true ∧
    (mapLookup (step3_ForwardSubstitution GLeftRec 1 (step2_Ordering GLeftRec)).1 vA).isSome = true ∧
    (mapLookup (run GLeftRec) vA).isSome = true :=
  ⟨by decide, (run_preserves_variable_entries GLeftRec vA (by decide)).1,
    (run_preserves_variable_entries GLeftRec vA (by decide)).2⟩

/-
The pipeline is the identity on grammars already in GNF.
-/

theorem mapLookup_mem (G : Grammar) (V : Symbol) (ps : Productions)
    (h : mapLookup G V = some ps) : (V, ps) ∈ G := by
  induction G with
  | nil => simp [mapLookup] at h
  | cons p rest ih =>
    obtain ⟨k, v⟩ := p
    by_cases h2 : V = k
    · subst h2
      rw [show mapLookup ((V, v) :: rest) V = some v from by simp [mapLookup]] at h
      injection h with h
      subst h
      exact List.mem_cons_self _ _
    · simp only [mapLookup, if_neg h2] at h
      exact List.mem_cons_of_mem _ (ih h)

theorem isSome_of_pair_mem (G : Grammar) (k : Symbol) (v : Productions)
    (h : (k, v) ∈ G) : (mapLookup G k).isSome = true := by
  induction G with
  | nil => simp at h
  | cons p rest ih =>
    obtain ⟨k1, v1⟩ := p
    by_cases h2 : k = k1
    · simp [mapLookup, h2]
    · rcases List.mem_cons.mp h with h3 | h3
      · exact absurd (congrArg Prod.fst h3) h2
      · simp only [mapLookup, if_neg h2]
        exact ih h3

theorem grammarInGNF_lookup (G : Grammar) (V : Symbol) (ps : Productions)
    (hg : grammarInGNF G = true) (h : mapLookup G V = some ps) :
    ∀ b ∈ ps, isGNFBody b = true := by
  have hm := mapLookup_mem G V ps h
  rw [grammarInGNF, List.all_eq_true] at hg
  have h2 := hg _ hm
  rwa [List.all_eq_true] at h2

theorem fsScan_gnf (G1 : Grammar) (Aj : Symbol) (hAj : Aj.type = SymbolType.VARIABLE)
    (rules : List ProductionBody) (hr : ∀ b ∈ rules, isGNFBody b = true) :
    fsScan G1 Aj rules = (rules, []) := by
  induction rules with
  | nil => rfl
  | cons b rest ih =>
    have hb := hr b (List.mem_cons_self _ _)
    have hrest : ∀ c ∈ rest, isGNFBody c = true :=
      fun c hc => hr c (List.mem_cons_of_mem _ hc)
    cases b with
    | nil => simp [isGNFBody] at hb
    | cons x tl =>
      have hx : x.type = SymbolType.TERMINAL := by simpa [isGNFBody] using hb
      have hxa : ¬(x = Aj) := by
        intro h2
        rw [h2, hAj] at hx
        exact SymbolType.noConfusion hx
      rw [show fsScan G1 Aj ((x :: tl) :: rest) =
          ((x :: tl) :: (fsScan G1 Aj rest).1, (fsScan G1 Aj rest).2) from by
        simp [fsScan, hxa]]
      rw [ih hrest]

theorem substituteInto_gnf (G : Grammar) (Ai Aj : Symbol) (rules : Productions)
    (h : mapLookup G Ai = some rules) (hr : ∀ b ∈ rules, isGNFBody b = true)
    (hAj : Aj.type = SymbolType.VARIABLE) :
    substituteInto G Ai Aj = G := by
  have h1 : getOrInsert G Ai = (G, rules) := getOrInsert_of_lookup G Ai rules h
  simp only [substituteInto, h1]
  rw [fsScan_gnf G Aj hAj rules hr]
  exact mapSet_lookup_self G Ai rules h

theorem eliminateLeftRecursion_gnf (G : Grammar) (zc : Int) (A : Symbol) (rules : Productions)
    (h : mapLookup G A = some rules) (hr : ∀ b ∈ rules, isGNFBody b = true)
    (hA : A.type = SymbolType.VARIABLE) :
    eliminateLeftRecursion G zc A = (G, zc) := by
  have h1 : getOrInsert G A = (G, rules) := getOrInsert_of_lookup G A rules h
  have hno : ¬(rules.any (isLeftRecursive A) = true) := by
    rw [List.any_eq_true]
    rintro ⟨b, hb, hrec⟩
    cases b with
    | nil => simp [isLeftRecursive] at hrec
    | cons x tl =>
      have hx : x.type = SymbolType.TERMINAL := by simpa [isGNFBody] using hr _ hb
      rw [show isLeftRecursive A (x :: tl) = decide (x = A) from rfl,
        decide_eq_true_eq] at hrec
      rw [hrec, hA] at hx
      exact SymbolType.noConfusion hx
  simp [eliminateLeftRecursion, h1, hno]

theorem foldl_substituteInto_gnf (Ai : Symbol) (done : List Symbol) (G : Grammar)
    (rules : Productions) (h : mapLookup G Ai = some rules)
    (hr : ∀ b ∈ rules, isGNFBody b = true)
    (hdone : ∀ Aj ∈ done, Aj.type = SymbolType.VARIABLE) :
    done.foldl (fun g Aj => substituteInto g Ai Aj) G = G := by
  induction done with
  | nil => rfl
  | cons Aj rest ih =>
    rw [List.foldl_cons]
    rw [show substituteInto G Ai Aj = G from
      substituteInto_gnf G Ai Aj rules h hr (hdone Aj (List.mem_cons_self _ _))]
    exact ih (fun A2 hA2 => hdone A2 (List.mem_cons_of_mem _ hA2))

theorem step3Go_gnf (rest : List Symbol) (done : List Symbol) (G : Grammar) (zc : Int)
    (hg : grammarInGNF G = true)
    (hrest : ∀ V ∈ rest, (mapLookup G V).isSome = true ∧ V.type = SymbolType.VARIABLE)
    (hdone : ∀ V ∈ done, V.type = SymbolType.VARIABLE) :
    step3Go G zc done rest = (G, zc) := by
  induction rest generalizing done with
  | nil => rfl
  | cons Ai rest2 ih =>
    obtain ⟨hAsome, hAvar⟩ := hrest Ai (List.mem_cons_self _ _)
    obtain ⟨rulesA, hrulesA⟩ := Option.isSome_iff_exists.mp hAsome
    have hbodies : ∀ b ∈ rulesA, isGNFBody b = true :=
      grammarInGNF_lookup G Ai rulesA hg hrulesA
    have hfold : done.foldl (fun g Aj => substituteInto g Ai Aj) G = G :=
      foldl_substituteInto_gnf Ai done G rulesA hrulesA hbodies hdone
    simp only [step3Go]
    rw [hfold, eliminateLeftRecursion_gnf G zc Ai rulesA hrulesA hbodies hAvar]
    refine ih (done ++ [Ai]) ?_ ?_
    · exact fun V hV => hrest V (List.mem_cons_of_mem _ hV)
    · intro V hV
      rcases List.mem_append.mp hV with h2 | h2
      · exact hdone V h2
      · simp only [List.mem_singleton] at h2
        subst h2
        exact hAvar

theorem sutGo_gnf (G1 : Grammar) (t : Symbol) (newRules : List ProductionBody) :
    ∀ (pending : List ProductionBody) (kept : List ProductionBody),
      (∀ b ∈ pending, isGNFBody b = true) →
      sutGo G1 t kept newRules pending = (kept ++ pending, newRules) := by
  intro pending
  induction pending with
  | nil =>
    intro kept _
    simp [sutGo]
  | cons b rest ih =>
    intro kept hp
    have hb := hp b (List.mem_cons_self _ _)
    have hrest : ∀ c ∈ rest, isGNFBody c = true :=
      fun c hc => hp c (List.mem_cons_of_mem _ hc)
    cases b with
    | nil => simp [isGNFBody] at hb
    | cons x tl =>
      have hx : x.type = SymbolType.TERMINAL := by simpa [isGNFBody] using hb
      have hxv : ¬(x.type = SymbolType.VARIABLE) := by
        rw [hx]
        intro h2
        exact SymbolType.noConfusion h2
      rw [show sutGo G1 t kept newRules ((x :: tl) :: rest) =
          sutGo G1 t (kept ++ [x :: tl]) newRules rest from by simp [sutGo, hxv]]
      rw [ih _ hrest]
      simp

theorem substituteUntilTerminal_gnf (G : Grammar) (t : Symbol) (rules : Productions)
    (h : mapLookup G t = some rules) (hr : ∀ b ∈ rules, isGNFBody b = true) :
    substituteUntilTerminal G t = G := by
  have h1 : getOrInsert G t = (G, rules) := getOrInsert_of_lookup G t rules h
  simp only [substituteUntilTerminal, h1]
  rw [sutGo_gnf G t [] rules [] hr]
  exact mapSet_lookup_self G t rules h

theorem foldl_sut_gnf (l : List Symbol) (G : Grammar)
    (hg : grammarInGNF G = true)
    (hl : ∀ V ∈ l, (mapLookup G V).isSome = true) :
    l.foldl substituteUntilTerminal G = G := by
  induction l with
  | nil => rfl
  | cons t rest ih =>
    obtain ⟨rules, hrules⟩ := Option.isSome_iff_exists.mp (hl t (List.mem_cons_self _ _))
    rw [List.foldl_cons]
    rw [show substituteUntilTerminal G t = G from
      substituteUntilTerminal_gnf G t rules hrules (grammarInGNF_lookup G t rules hg hrules)]
    exact ih (fun V hV => hl V (List.mem_cons_of_mem _ hV))

theorem mem_filterMap_keys (G : Grammar) (ordered : List Symbol) (V : Symbol)
    (h : V ∈ G.filterMap fun p =>
      if ordered.any (fun v => decide (v = p.1)) then none else some p.1) :
    ∃ ps, (V, ps) ∈ G := by
  rw [List.mem_filterMap] at h
  obtain ⟨p, hp, heq⟩ := h
  by_cases hc : (ordered.any (fun v => decide (v = p.1))) = true
  · simp [hc] at heq
  · simp only [hc] at heq
    simp only [Bool.false_eq_true, if_false, Option.some.injEq] at heq
    subst heq
    exact ⟨p.2, by simpa using hp⟩

theorem step5_gnf (G : Grammar) (ordered : List Symbol)
    (hg : grammarInGNF G = true)
    (ho : ∀ V ∈ ordered, (mapLookup G V).isSome = true) :
    step5_BackSubstitution G ordered = G := by
  simp only [step5_BackSubstitution]
  have h1 : ordered.reverse.foldl substituteUntilTerminal G = G :=
    foldl_sut_gnf _ G hg (fun V hV => ho V (List.mem_reverse.mp hV))
  rw [h1]
  apply foldl_sut_gnf _ G hg
  intro V hV
  obtain ⟨ps, hps⟩ := mem_filterMap_keys G ordered V hV
  exact isSome_of_pair_mem G V ps hps

theorem mem_insertByIndex (x a : Symbol) (l : List Symbol) :
    a ∈ insertByIndex x l ↔ a = x ∨ a ∈ l := by
  induction l with
  | nil => simp [insertByIndex]
  | cons y ys ih =>
    by_cases h : x.index < y.index
    · rw [show insertByIndex x (y :: ys) = x :: y :: ys from by simp [insertByIndex, h]]
      simp [List.mem_cons]
    · rw [show insertByIndex x (y :: ys) = y :: insertByIndex x ys from by
        simp [insertByIndex, h]]
      simp only [List.mem_cons, ih]
      tauto

theorem mem_sortByIndex (a : Symbol) (l : List Symbol) :
    a ∈ sortByIndex l ↔ a ∈ l := by
  induction l with
  | nil => simp [sortByIndex]
  | cons x xs ih =>
    rw [show sortByIndex (x :: xs) = insertByIndex x (sortByIndex xs) from rfl]
    rw [mem_insertByIndex, ih]
    simp [List.mem_cons]

theorem step2_mem (G : Grammar) (V : Symbol) (h : V ∈ step2_Ordering G) :
    (mapLookup G V).isSome = true ∧ V.type = SymbolType.VARIABLE := by
  rw [step2_Ordering, mem_sortByIndex, List.mem_filterMap] at h
  obtain ⟨p, hp, heq⟩ := h
  by_cases hc : p.1.type = SymbolType.VARIABLE
  · simp only [hc, if_true, Option.some.injEq] at heq
    subst heq
    exact ⟨isSome_of_pair_mem G p.1 p.2 (by simpa using hp), hc⟩
  · simp [hc] at heq

/-- Claim C9.  Running the full pipeline on a grammar that is already in
Greibach normal form changes nothing: the resulting grammar is equal to
the input, so every production set is identical and no helper variables
are introduced. -/
theorem run_identity_on_gnf (G : Grammar) (hg : grammarInGNF G = true) : run G = G := by
  simp only [run]
  have h3 : step3Go G 1 [] (step2_Ordering G) = (G, 1) :=
    step3Go_gnf (step2_Ordering G) [] G 1 hg (fun V hV => step2_mem G V hV)
      (by intro V hV; simp at hV)
  rw [show step3_ForwardSubstitution G 1 (step2_Ordering G) = (G, 1) from h3]
  exact step5_gnf G (step2_Ordering G) hg (fun V hV => (step2_mem G V hV).1)

/-- Witness for the identity claim on a one-rule GNF grammar. -/
theorem run_identity_on_gnf_witness :
    grammarInGNF GTermOnly = true ∧ run GTermOnly = GTermOnly :=
  ⟨by decide, run_identity_on_gnf GTermOnly (by decide)⟩

/-
Empty bodies survive the pipeline for variables whose index a helper can
never reach.
-/

theorem mapLookup_getOrInsert_ne (G : Grammar) (k W : Symbol) (h : W ≠ k) :
    mapLookup (getOrInsert G k).1 W = mapLookup G W := by
  unfold getOrInsert
  cases hl : mapLookup G k with
  | some v => rfl
  | none => exact mapLookup_mapSet_ne G k [] W h

theorem freshZ_ne_of_index (A V : Symbol) (zc : Int) (hV : V.index ≤ 1000) (hzc : 1 ≤ zc) :
    freshZ A zc ≠ V := by
  intro h
  have h2 := congrArg Symbol.index h
  simp only [freshZ] at h2
  omega

theorem fsScan_keeps_nil (G1 : Grammar) (Aj : Symbol) (rules : List ProductionBody)
    (h : [] ∈ rules) : [] ∈ (fsScan G1 Aj rules).1 := by
  induction rules with
  | nil => simp at h
  | cons b rest ih =>
    rcases List.mem_cons.mp h with h2 | h2
    · subst h2
      rw [show fsScan G1 Aj ([] :: rest) =
          ([] :: (fsScan G1 Aj rest).1, (fsScan G1 Aj rest).2) from by simp [fsScan]]
      exact List.mem_cons_self _ _
    · cases b with
      | nil =>
        rw [show fsScan G1 Aj ([] :: rest) =
            ([] :: (fsScan G1 Aj rest).1, (fsScan G1 Aj rest).2) from by simp [fsScan]]
        exact List.mem_cons_self _ _
      | cons x tl =>
        by_cases hx : x = Aj
        · cases hopt : mapLookup G1 Aj with
          | some ajRules =>
            rw [show fsScan G1 Aj ((x :: tl) :: rest) =
                ((fsScan G1 Aj rest).1,
                  ajRules.foldl (fun s beta => prodInsert (beta ++ tl) s)
                    (fsScan G1 Aj rest).2) from by simp [fsScan, hx, hopt]]
            exact ih h2
          | none =>
            rw [show fsScan G1 Aj ((x :: tl) :: rest) =
                ((fsScan G1 Aj rest).1, (fsScan G1 Aj rest).2) from by
              simp [fsScan, hx, hopt]]
            exact ih h2
        · rw [show fsScan G1 Aj ((x :: tl) :: rest) =
              ((x :: tl) :: (fsScan G1 Aj rest).1, (fsScan G1 Aj rest).2) from by
            simp [fsScan, hx]]
          exact List.mem_cons_of_mem _ (ih h2)

theorem sutGo_keeps_nil (G1 : Grammar) (t : Symbol) :
    ∀ (pending kept newRules : List ProductionBody), ([] ∈ kept ∨ [] ∈ pending) →
      [] ∈ (sutGo G1 t kept newRules pending).1 := by
  intro pending
  induction pending with
  | nil =>
    intro kept nr h
    rcases h with h | h
    · simpa [sutGo] using h
    · simp at h
  | cons b rest ih =>
    intro kept nr h
    cases b with
    | nil =>
      rw [show sutGo G1 t kept nr ([] :: rest) = sutGo G1 t (kept ++ [[]]) nr rest from rfl]
      apply ih
      left
      simp
    | cons x tl =>
      have h2 : [] ∈ kept ∨ [] ∈ rest := by
        rcases h with h | h
        · exact Or.inl h
        · rcases List.mem_cons.mp h with h3 | h3
          · exact absurd h3 (by simp)
          · exact Or.inr h3
      by_cases hx : x.type = SymbolType.VARIABLE
      · cases hopt : (if x = t then some (kept ++ (x :: tl) :: rest) else mapLookup G1 x) with
        | some repls =>
          rw [show sutGo G1 t kept nr ((x :: tl) :: rest) =
              sutGo G1 t kept
                (repls.foldl (fun s repl => prodInsert (repl ++ tl) s) nr) rest from by
            simp [sutGo, hx, hopt]]
          exact ih _ _ h2
        | none =>
          rw [show sutGo G1 t kept nr ((x :: tl) :: rest) =
              sutGo G1 t kept nr rest from by simp [sutGo, hx, hopt]]
          exact ih _ _ h2
      · rw [show sutGo G1 t kept nr ((x :: tl) :: rest) =
            sutGo G1 t (kept ++ [x :: tl]) nr rest from by simp [sutGo, hx]]
        apply ih
        rcases h2 with h3 | h3
        · exact Or.inl (List.mem_append_left _ h3)
        · exact Or.inr h3

theorem substituteInto_preserves_eps (G : Grammar) (Ai Aj V : Symbol) (ps : Productions)
    (h : mapLookup G V = some ps) (he : [] ∈ ps) :
    ∃ ps2, mapLookup (substituteInto G Ai Aj) V = some ps2 ∧ [] ∈ ps2 := by
  by_cases hAV : Ai = V
  · subst hAV
    have h1 : getOrInsert G Ai = (G, ps) := getOrInsert_of_lookup _ _ _ h
    simp only [substituteInto, h1]
    refine ⟨_, mapLookup_mapSet_self _ _ _, ?_⟩
    rw [mem_setUnion]
    exact Or.inl (fsScan_keeps_nil G Aj ps he)
  · refine ⟨ps, ?_, he⟩
    simp only [substituteInto]
    rw [mapLookup_mapSet_ne _ _ _ _ (Ne.symm hAV), mapLookup_getOrInsert_ne G Ai V (Ne.symm hAV)]
    exact h

theorem eliminateLeftRecursion_preserves_eps (G : Grammar) (zc : Int) (A V : Symbol)
    (ps : Productions) (h : mapLookup G V = some ps) (he : [] ∈ ps)
    (hV : V.index ≤ 1000) (hzc : 1 ≤ zc) :
    ∃ ps2, mapLookup (eliminateLeftRecursion G zc A).1 V = some ps2 ∧ [] ∈ ps2 := by
  have hZV : freshZ A zc ≠ V := freshZ_ne_of_index A V zc hV hzc
  by_cases hAV : A = V
  · subst hAV
    by_cases hrec : (ps.any (isLeftRecursive A)) = true
    · obtain ⟨_, hA_mem, _⟩ := elim_rewrite_lookup G zc A ps h hrec
      have hsome : (mapLookup (eliminateLeftRecursion G zc A).1 A).isSome = true :=
        isSome_eliminateLeftRecursion G zc A A (by rw [h]; rfl)
      obtain ⟨ps2, hps2⟩ := Option.isSome_iff_exists.mp hsome
      refine ⟨ps2, hps2, ?_⟩
      have h3 := (hA_mem []).mpr ⟨[], he, rfl, Or.inl rfl⟩
      rwa [lookupD, hps2, Option.getD_some] at h3
    · rw [show eliminateLeftRecursion G zc A = (G, zc) from by
        simp [eliminateLeftRecursion, getOrInsert_of_lookup _ _ _ h, hrec]]
      exact ⟨ps, h, he⟩
  · rcases eliminateLeftRecursion_shape G zc A with heq | ⟨v1, v2, heq⟩
    · rw [heq]
      refine ⟨ps, ?_, he⟩
      rw [mapLookup_getOrInsert_ne G A V (Ne.symm hAV)]
      exact h
    · rw [heq]
      refine ⟨ps, ?_, he⟩
      rw [mapLookup_mapSet_ne _ _ _ _ (Ne.symm hZV), mapLookup_mapSet_ne _ _ _ _ (Ne.symm hAV),
        mapLookup_getOrInsert_ne G A V (Ne.symm hAV)]
      exact h

theorem substituteUntilTerminal_preserves_eps (G : Grammar) (t V : Symbol) (ps : Productions)
    (h : mapLookup G V = some ps) (he : [] ∈ ps) :
    ∃ ps2, mapLookup (substituteUntilTerminal G t) V = some ps2 ∧ [] ∈ ps2 := by
  by_cases htV : t = V
  · subst htV
    have h1 : getOrInsert G t = (G, ps) := getOrInsert_of_lookup _ _ _ h
    simp only [substituteUntilTerminal, h1]
    refine ⟨_, mapLookup_mapSet_self _ _ _, ?_⟩
    rw [mem_setUnion]
    exact Or.inl (sutGo_keeps_nil G t ps [] [] (Or.inr he))
  · refine ⟨ps, ?_, he⟩
    simp only [substituteUntilTerminal]
    rw [mapLookup_mapSet_ne _ _ _ _ (Ne.symm htV), mapLookup_getOrInsert_ne G t V (Ne.symm htV)]
    exact h

theorem le_eliminateLeftRecursion_zc (G : Grammar) (zc : Int) (A : Symbol) :
    zc ≤ (eliminateLeftRecursion G zc A).2 := by
  rcases eliminateLeftRecursion_shape G zc A with heq | ⟨v1, v2, heq⟩ <;> simp [heq]

theorem foldl_substituteInto_preserves_eps (Ai : Symbol) (done : List Symbol) (G : Grammar)
    (V : Symbol) (ps : Productions) (h : mapLookup G V = some ps) (he : [] ∈ ps) :
    ∃ ps2, mapLookup (done.foldl (fun g Aj => substituteInto g Ai Aj) G) V = some ps2 ∧
      [] ∈ ps2 := by
  induction done generalizing G ps with
  | nil => exact ⟨ps, h, he⟩
  | cons Aj rest ih =>
    obtain ⟨ps2, h2, he2⟩ := substituteInto_preserves_eps G Ai Aj V ps h he
    exact ih _ _ h2 he2

theorem step3Go_preserves_eps (rest : List Symbol) (done : List Symbol) (G : Grammar)
    (zc : Int) (V : Symbol) (ps : Productions) (h : mapLookup G V = some ps) (he : [] ∈ ps)
    (hV : V.index ≤ 1000) (hzc : 1 ≤ zc) :
    ∃ ps2, mapLookup (step3Go G zc done rest).1 V = some ps2 ∧ [] ∈ ps2 := by
  induction rest generalizing G zc done ps with
  | nil => exact ⟨ps, by simpa [step3Go] using h, he⟩
  | cons Ai rest2 ih =>
    obtain ⟨ps1, h1, he1⟩ := foldl_substituteInto_preserves_eps Ai done G V ps h he
    obtain ⟨ps2, h2, he2⟩ :=
      eliminateLeftRecursion_preserves_eps _ zc Ai V ps1 h1 he1 hV hzc
    simp only [step3Go]
    exact ih _ _ _ _ h2 he2 (le_trans hzc (le_eliminateLeftRecursion_zc _ zc Ai))

theorem foldl_sut_preserves_eps (l : List Symbol) (G : Grammar) (V : Symbol)
    (ps : Productions) (h : mapLookup G V = some ps) (he : [] ∈ ps) :
    ∃ ps2, mapLookup (l.foldl substituteUntilTerminal G) V = some ps2 ∧ [] ∈ ps2 := by
  induction l generalizing G ps with
  | nil => exact ⟨ps, h, he⟩
  | cons t rest ih =>
    obtain ⟨ps2, h2, he2⟩ := substituteUntilTerminal_preserves_eps G t V ps h he
    exact ih _ _ h2 he2

theorem step5_preserves_eps (G : Grammar) (ordered : List Symbol) (V : Symbol)
    (ps : Productions) (h : mapLookup G V = some ps) (he : [] ∈ ps) :
    ∃ ps2, mapLookup (step5_BackSubstitution G ordered) V = some ps2 ∧ [] ∈ ps2 := by
  simp only [step5_BackSubstitution]
  obtain ⟨ps1, h1, he1⟩ := foldl_sut_preserves_eps ordered.reverse G V ps h he
  exact foldl_sut_preserves_eps _ _ _ _ h1 he1

theorem grammarInGNF_false_of_eps (G : Grammar) (V : Symbol) (ps : Productions)
    (h : mapLookup G V = some ps) (he : [] ∈ ps) : grammarInGNF G = false := by
  cases hg : grammarInGNF G with
  | false => rfl
  | true => exact absurd (grammarInGNF_lookup G V ps hg h [] he) (by decide)

/-- Claim C10 (amended).  Provided the variable carrying an empty body has
ordering index at most 1000, so that no helper can collide with it, the
empty body passes through every phase with no error signalled, and the
output grammar then violates the GNF invariant. -/
theorem run_preserves_empty_body (G : Grammar) (V : Symbol) (ps : Productions)
    (h : mapLookup G V = some ps) (he : [] ∈ ps) (hV : V.index ≤ 1000) :
    ∃ ps2, mapLookup (run G) V = some ps2 ∧ [] ∈ ps2 ∧ grammarInGNF (run G) = false := by
  simp only [run, step3_ForwardSubstitution]
  obtain ⟨ps1, h1, he1⟩ :=
    step3Go_preserves_eps (step2_Ordering G) [] G 1 V ps h he hV (by omega)
  obtain ⟨ps2, h2, he2⟩ := step5_preserves_eps _ (step2_Ordering G) V ps1 h1 he1
  exact ⟨ps2, h2, he2, grammarInGNF_false_of_eps _ V ps2 h2 he2⟩

/-- Witness for the amended empty-body claim: the grammar Q derives the
empty body or a keeps its empty body through the pipeline. -/
theorem run_preserves_empty_body_witness :
    mapLookup GEpsKeep vQ = some [[], [ta]] ∧
    (∃ ps2, mapLookup (run GEpsKeep) vQ = some ps2 ∧ [] ∈ ps2 ∧
      grammarInGNF (run GEpsKeep) = false) :=
  ⟨rfl, run_preserves_empty_body GEpsKeep vQ _ rfl (by decide) (by decide)⟩

/-
Language preservation fails on the collision grammar: the word c is
derivable from A before the pipeline and not after.
-/

theorem run_GCollide_eq :
    run GCollide = [(vA, [[ta], [ta, vZA], [ta, vZA, vZA]]), (vZA, [[ta], [ta, vZA]])] := by
  decide

theorem GCollide_out_no_c (V : Symbol) (ps : Productions)
    (h : mapLookup (run GCollide) V = some ps) : ∀ b ∈ ps, tc ∉ b := by
  rw [run_GCollide_eq] at h
  simp only [mapLookup] at h
  by_cases h1 : V = vA
  · rw [if_pos h1] at h
    injection h with h
    subst h
    decide
  · rw [if_neg h1] at h
    by_cases h2 : V = vZA
    · rw [if_pos h2] at h
      injection h with h
      subst h
      decide
    · rw [if_neg h2] at h
      exact absurd h (by simp)

theorem deriv_no_c (s t : List Symbol) (hd : Deriv (run GCollide) s t) (hs : tc ∉ s) :
    tc ∉ t := by
  revert hs
  induction hd with
  | refl s => exact fun hs => hs
  | step pre suf body t2 V ps hl hb _ ih =>
    intro hs
    apply ih
    have hbody : tc ∉ body := GCollide_out_no_c V ps hl body hb
    intro hmem
    rcases List.mem_append.mp hmem with h1 | h1
    · rcases List.mem_append.mp h1 with h2 | h2
      · exact hs (List.mem_append_left _ h2)
      · exact hbody h2
    · exact hs (List.mem_append_right _ (List.mem_cons_of_mem _ h1))

theorem deriv_c_in_GCollide : Deriv GCollide [vA] [tc] := by
  have h2 : Deriv GCollide [vZA] [tc] :=
    Deriv.step [] [] [tc] [tc] vZA [[tc]] rfl (by decide) (Deriv.refl [tc])
  exact Deriv.step [] [] [vZA] [tc] vA [[vA, ta], [vZA]] rfl (by decide) h2

/-- Claim C2, failing input.  The grammar GCollide meets every stated
precondition, the terminal word c is derivable from A in the input, and it
is not derivable from A in the output of the pipeline: the helper created
for A collides with the legitimate input variable Z_A of index 1001 and
overwrites its production set, so every output word consists of the
terminal a only. -/
theorem language_not_preserved_on_GCollide :
    noEmptyBodies GCollide = true ∧ uniqueOrderingIndices GCollide = true ∧
    noDanglingReferences GCollide = true ∧
    Deriv GCollide [vA] [tc] ∧
    ¬ Deriv (run GCollide) [vA] [tc] := by
  refine ⟨by decide, by decide, by decide, deriv_c_in_GCollide, ?_⟩
  intro h
  exact (deriv_no_c [vA] [tc] h (by decide)) (by decide)

end GNF
